import Mathlib

/-!
# Verification of the LiveDict key-value cache against its design specification

This file gives a shallow embedding, in Lean 4, of the parts of the LiveDict
repository that the specification's claims are about:

* the encryption keyring of `src/src/core.py` (`_encrypt`, `_decrypt`,
  `rotate_key`) together with the legacy `LiveDict.get` of that file;
* the v2 engine of `src/livedict/modules/livedict.py` (`LiveDictImpl.set`,
  `get`, `delete`, `lock`, `unlock`, `_handle_expiry`, `_trigger_event`,
  `_gather_callbacks`, `set_callback_enabled`, `register_callback`) with the
  `ExpiryScheduler` run loop and the `MemoryBackend` of
  `src/livedict/modules/storage_backend.py`;
* the sandbox wrapper of `src/livedict/modules/sandbox.py`.

External libraries are modelled at their documented interface: AES-GCM (the
`cryptography` package) is modelled as an ideal authenticated cipher whose
ciphertext commits to the encryption key, and the JSON codec is modelled as an
injective encode/decode pair.  Wall-clock time (`time.time()`) is passed to
every operation as an explicit integer tick-count parameter (the claims only
use the ordered additive structure of time, so integer ticks at an arbitrary
granularity model the float seconds faithfully).  Python `dict`s are
modelled as insertion-ordered association lists, `set`s as duplicate-free
lists, and the `heapq` priority queue by its observable behaviour: pop removes
the lexicographically least `(when, key)` node.
-/

/-! ## Association-list helpers (Python `dict` semantics) -/

/-- Lookup in an insertion-ordered association list (`d.get(k)`). -/
def alookup {κ α : Type} [DecidableEq κ] : List (κ × α) → κ → Option α
  | [], _ => none
  | (k', v) :: rest, k => if k' = k then some v else alookup rest k

/-- Assignment `d[k] = v`: replace the existing binding in place, else append. -/
def aset {κ α : Type} [DecidableEq κ] : List (κ × α) → κ → α → List (κ × α)
  | [], k, v => [(k, v)]
  | (k', v') :: rest, k, v =>
    if k' = k then (k, v) :: rest else (k', v') :: aset rest k v

/-- Removal `d.pop(k, None)`: drop the binding for `k` if present. -/
def aerase {κ α : Type} [DecidableEq κ] : List (κ × α) → κ → List (κ × α)
  | [], _ => []
  | (k', v') :: rest, k =>
    if k' = k then rest else (k', v') :: aerase rest k

/-- Python `set.add`: insert an element unless already present. -/
def sinsert {α : Type} [DecidableEq α] (s : List α) (a : α) : List α :=
  if a ∈ s then s else s ++ [a]

/-- Python `set.discard`: remove an element if present. -/
def sdiscard {α : Type} [DecidableEq α] : List α → α → List α
  | [], _ => []
  | b :: rest, a => if b = a then rest else b :: sdiscard rest a

theorem alookup_aset_self {κ α : Type} [DecidableEq κ]
    (l : List (κ × α)) (k : κ) (v : α) : alookup (aset l k v) k = some v := by
  induction l with
  | nil => simp [aset, alookup]
  | cons hd tl ih =>
    obtain ⟨k', v'⟩ := hd
    by_cases h : k' = k <;> simp [aset, alookup, h, ih]

theorem alookup_aset_ne {κ α : Type} [DecidableEq κ]
    (l : List (κ × α)) (k k' : κ) (v : α) (h : k ≠ k') :
    alookup (aset l k v) k' = alookup l k' := by
  induction l with
  | nil => simp [aset, alookup, h]
  | cons hd tl ih =>
    obtain ⟨k0, v0⟩ := hd
    by_cases h0 : k0 = k
    · subst h0
      simp [aset, alookup, h, Ne.symm h]
    · simp [aset, alookup, h0, ih]

theorem alookup_eq_none_of_not_mem {κ α : Type} [DecidableEq κ]
    (l : List (κ × α)) (k : κ) (h : k ∉ l.map Prod.fst) : alookup l k = none := by
  induction l with
  | nil => rfl
  | cons hd tl ih =>
    obtain ⟨k0, v0⟩ := hd
    simp only [List.map_cons, List.mem_cons, not_or] at h
    have hne : ¬ k0 = k := fun he => h.1 he.symm
    simp only [alookup, if_neg hne]
    exact ih h.2

theorem alookup_aerase_self {κ α : Type} [DecidableEq κ]
    (l : List (κ × α)) (k : κ) (hnd : (l.map Prod.fst).Nodup) :
    alookup (aerase l k) k = none := by
  induction l with
  | nil => rfl
  | cons hd tl ih =>
    obtain ⟨k0, v0⟩ := hd
    simp only [List.map_cons, List.nodup_cons] at hnd
    by_cases h0 : k0 = k
    · subst h0
      simp only [aerase, if_pos rfl]
      exact alookup_eq_none_of_not_mem tl k0 hnd.1
    · simp only [aerase, if_neg h0, alookup, if_neg h0]
      exact ih hnd.2

theorem alookup_aerase_ne {κ α : Type} [DecidableEq κ]
    (l : List (κ × α)) (k k' : κ) (h : k ≠ k') :
    alookup (aerase l k) k' = alookup l k' := by
  induction l with
  | nil => simp [aerase]
  | cons hd tl ih =>
    obtain ⟨k0, v0⟩ := hd
    by_cases h0 : k0 = k
    · subst h0
      simp [aerase, alookup, h]
    · simp [aerase, alookup, h0, ih]

theorem mem_sdiscard_of_ne {α : Type} [DecidableEq α]
    (s : List α) (a b : α) (hne : a ≠ b) (ha : a ∈ s) : a ∈ sdiscard s b := by
  induction s with
  | nil => simp at ha
  | cons hd tl ih =>
    rcases List.mem_cons.mp ha with h | h
    · subst h
      simp only [sdiscard, if_neg hne]
      exact List.mem_cons_self _ _
    · by_cases h0 : hd = b
      · simpa [sdiscard, if_pos h0] using h
      · simp only [sdiscard, if_neg h0]
        exact List.mem_cons_of_mem _ (ih h)

theorem not_mem_sdiscard {α : Type} [DecidableEq α]
    (s : List α) (a : α) (ha : a ∉ s) : a ∉ sdiscard s a := by
  induction s with
  | nil => simp [sdiscard]
  | cons hd tl ih =>
    simp only [List.mem_cons, not_or] at ha
    by_cases h0 : hd = a
    · simp only [sdiscard, if_pos h0]
      exact ha.2
    · simp only [sdiscard, if_neg h0, List.mem_cons, not_or]
      exact ⟨ha.1, ih ha.2⟩

/-! ## Idealized model of the external AEAD cipher (AES-GCM)

`core.py` delegates authenticated encryption to `AESGCM` from the
`cryptography` package, which is outside this repository.  We model it as an
ideal authenticated cipher over byte lists: the ciphertext records the
encryption key, and decryption authenticates successfully exactly for that
key, returning the original plaintext.  The nonce is threaded through both
operations with the real signature but does not gate authentication in the
ideal model (no claim depends on wrong-nonce failure). -/

/-- Ideal `AESGCM(key).encrypt(nonce, pt, None)`: the ciphertext body commits
to the key and carries the plaintext. -/
def aeadEncrypt (key : Nat) (_nonce : List Nat) (pt : List Nat) : List Nat :=
  key :: pt

/-- Ideal `AESGCM(key).decrypt(nonce, ct, None)`: succeeds with the original
plaintext exactly when `ct` was produced under `key`; any other input fails
authentication (returns `none`, the model of `InvalidTag`). -/
def aeadDecrypt (key : Nat) (_nonce : List Nat) (ct : List Nat) : Option (List Nat) :=
  match ct with
  | [] => none
  | k :: body => if k = key then some body else none

/-! ## Keyring layer of `src/src/core.py` -/

/-- Keyring state of `core.LiveDict`: the ordered key list `_keys` (newest
appended last) and `_current_key_idx`. -/
structure Keyring where
  keys : List Nat
  currentKeyIdx : Nat
deriving DecidableEq, Repr

/-- The key `self._keys[self._current_key_idx]` used for new encryptions
(defaulting to 0 on an out-of-range index, which never happens in reachable
states). -/
def currentKey (st : Keyring) : Nat :=
  st.keys.getD st.currentKeyIdx 0

/-- `LiveDict._encrypt` (`core.py` lines 323-335): fresh 12-byte nonce (passed
here as an explicit parameter in place of `os.urandom(12)`), AES-GCM encrypt
under the current key, return `nonce + ct`. -/
def encryptImpl (st : Keyring) (nonce : List Nat) (pt : List Nat) : List Nat :=
  nonce ++ aeadEncrypt (currentKey st) nonce pt

/-- The key-trial loop of `LiveDict._decrypt`: `for key in reversed(self._keys)`
returning on the first successful authentication. -/
def tryKeysDecrypt : List Nat → List Nat → List Nat → Option (List Nat)
  | [], _, _ => none
  | k :: rest, nonce, body =>
    match aeadDecrypt k nonce body with
    | some pt => some pt
    | none => tryKeysDecrypt rest nonce body

/-- `LiveDict._decrypt` (`core.py` lines 337-356): reject inputs shorter than
13 bytes, split `nonce = ct[:12]`, `body = ct[12:]`, and try every keyring key
newest-first, returning `None` if all fail. -/
def decryptImpl (st : Keyring) (ct : List Nat) : Option (List Nat) :=
  if ct.length < 13 then none
  else tryKeysDecrypt st.keys.reverse (ct.take 12) (ct.drop 12)

/-- `LiveDict.rotate_key` (`core.py` lines 302-313): append the new key and
make it current. -/
def rotateKey (st : Keyring) (newKey : Nat) : Keyring :=
  { keys := st.keys ++ [newKey], currentKeyIdx := st.keys.length }

/-- Decryption as the specification words it: split nonce and body, try each
key newest-first via first-success search, fail on inputs shorter than the
nonce length. -/
def specDecrypt (st : Keyring) (ct : List Nat) : Option (List Nat) :=
  if ct.length < 12 then none
  else st.keys.reverse.findSome? (fun k => aeadDecrypt k (ct.take 12) (ct.drop 12))

theorem tryKeysDecrypt_eq_findSome (keys nonce body : List Nat) :
    tryKeysDecrypt keys nonce body = keys.findSome? (fun k => aeadDecrypt k nonce body) := by
  induction keys with
  | nil => rfl
  | cons k rest ih =>
    simp only [tryKeysDecrypt, List.findSome?]
    cases aeadDecrypt k nonce body <;> simp [ih]

theorem tryKeysDecrypt_success (keys nonce : List Nat) (k : Nat) (pt : List Nat)
    (hk : k ∈ keys) : tryKeysDecrypt keys nonce (aeadEncrypt k nonce pt) = some pt := by
  induction keys with
  | nil => simp at hk
  | cons k' rest ih =>
    by_cases h : k = k'
    · subst h
      simp [tryKeysDecrypt, aeadEncrypt, aeadDecrypt]
    · rcases List.mem_cons.mp hk with h' | hk'
      · exact absurd h' h
      · simp only [tryKeysDecrypt, aeadEncrypt, aeadDecrypt, if_neg h]
        exact ih hk'

theorem currentKey_mem (st : Keyring) (h : st.currentKeyIdx < st.keys.length) :
    currentKey st ∈ st.keys := by
  simp only [currentKey, List.getD_eq_getElem?_getD, List.getElem?_eq_getElem h]
  exact List.getElem_mem h

/-- C3 — Round-trip through any keyring containing the encryption-time key;
rotation preserves decryptability of old ciphertexts and switches new
encryptions to the new key.  Conjuncts: (1) `decrypt(encrypt(p)) = p` whenever
the decrypting keyring contains the key that was current at encryption time;
(2) after `rotate_key(k2)`, a ciphertext produced under the earlier current
key still decrypts to its original plaintext; (3) every encryption performed
after the rotation uses `k2`. -/
theorem c3_encrypt_decrypt_roundtrip (st1 st2 : Keyring) (nonce pt : List Nat) (k2 : Nat)
    (hn : nonce.length = 12) (hmem : currentKey st1 ∈ st2.keys)
    (hidx : st1.currentKeyIdx < st1.keys.length) :
    decryptImpl st2 (encryptImpl st1 nonce pt) = some pt ∧
    decryptImpl (rotateKey st1 k2) (encryptImpl st1 nonce pt) = some pt ∧
    currentKey (rotateKey st1 k2) = k2 ∧
    encryptImpl (rotateKey st1 k2) nonce pt = nonce ++ aeadEncrypt k2 nonce pt := by
  have hlen : (encryptImpl st1 nonce pt).length = 13 + pt.length := by
    simp [encryptImpl, aeadEncrypt, hn]
    omega
  have htake : (encryptImpl st1 nonce pt).take 12 = nonce := by
    simp [encryptImpl, List.take_append_eq_append_take, hn]
  have hdrop : (encryptImpl st1 nonce pt).drop 12 = aeadEncrypt (currentKey st1) nonce pt := by
    simp [encryptImpl, List.drop_append_eq_append_drop, hn]
  have hcur : currentKey (rotateKey st1 k2) = k2 := by
    simp [currentKey, rotateKey]
  have main : ∀ st : Keyring, currentKey st1 ∈ st.keys →
      decryptImpl st (encryptImpl st1 nonce pt) = some pt := by
    intro st hm
    have hnot : ¬ (encryptImpl st1 nonce pt).length < 13 := by omega
    simp only [decryptImpl, if_neg hnot, htake, hdrop]
    exact tryKeysDecrypt_success _ _ _ _ (List.mem_reverse.mpr hm)
  refine ⟨main st2 hmem, main _ ?_, hcur, ?_⟩
  · simp only [rotateKey, List.mem_append]
    exact Or.inl (currentKey_mem st1 hidx)
  · simp [encryptImpl, hcur]

/-- Closed witness for C3 at a concrete keyring, nonce and plaintext. -/
theorem c3_encrypt_decrypt_roundtrip_witness :
    decryptImpl ⟨[5, 7], 1⟩ (encryptImpl ⟨[5], 0⟩ (List.replicate 12 0) [9, 9]) = some [9, 9] ∧
    decryptImpl (rotateKey ⟨[5], 0⟩ 7) (encryptImpl ⟨[5], 0⟩ (List.replicate 12 0) [9, 9]) = some [9, 9] ∧
    currentKey (rotateKey ⟨[5], 0⟩ 7) = 7 ∧
    encryptImpl (rotateKey ⟨[5], 0⟩ 7) (List.replicate 12 0) [9, 9] =
      List.replicate 12 0 ++ aeadEncrypt 7 (List.replicate 12 0) [9, 9] :=
  c3_encrypt_decrypt_roundtrip ⟨[5], 0⟩ ⟨[5, 7], 1⟩ (List.replicate 12 0) [9, 9] 7
    (by decide) (by decide) (by decide)

/-- C4 — Structure of `_decrypt`: it agrees with the specification's
newest-first first-success search; it returns `None` exactly when every
keyring key fails to authenticate the split body; and any input shorter than
the 12-byte nonce fails immediately, for every keyring (in particular no key
needs to be attempted). -/
theorem c4_decrypt_structure (st : Keyring) (ct : List Nat) :
    decryptImpl st ct = specDecrypt st ct ∧
    (decryptImpl st ct = none ↔
      ∀ k ∈ st.keys, aeadDecrypt k (ct.take 12) (ct.drop 12) = none) ∧
    (ct.length < 12 → decryptImpl st ct = none) := by
  have hbody : ct.length < 13 → ct.drop 12 = [] := by
    intro h
    have : (ct.drop 12).length = ct.length - 12 := List.length_drop 12 ct
    exact List.eq_nil_of_length_eq_zero (by omega)
  have hfail : ct.length < 13 → ∀ k, aeadDecrypt k (ct.take 12) (ct.drop 12) = none := by
    intro h k
    rw [hbody h]
    rfl
  constructor
  · by_cases h13 : ct.length < 13
    · by_cases h12 : ct.length < 12
      · simp [decryptImpl, specDecrypt, h13, h12]
      · simp only [decryptImpl, specDecrypt, if_pos h13, if_neg h12]
        rw [List.findSome?_eq_none_iff.mpr]
        intro k _
        exact hfail h13 k
    · have h12 : ¬ ct.length < 12 := by omega
      simp only [decryptImpl, specDecrypt, if_neg h13, if_neg h12]
      exact tryKeysDecrypt_eq_findSome _ _ _
  constructor
  · by_cases h13 : ct.length < 13
    · simp only [decryptImpl, if_pos h13, true_iff]
      intro k _
      exact hfail h13 k
    · simp only [decryptImpl, if_neg h13, tryKeysDecrypt_eq_findSome,
        List.findSome?_eq_none_iff]
      constructor
      · intro h k hk
        exact h k (List.mem_reverse.mpr hk)
      · intro h k hk
        exact h k (List.mem_reverse.mp hk)
  · intro h12
    simp [decryptImpl, show ct.length < 13 by omega]

/-- Closed witness for C4 at a concrete keyring and a concrete short input. -/
theorem c4_decrypt_structure_witness :
    (decryptImpl ⟨[5, 7], 1⟩ [1, 2, 3] = specDecrypt ⟨[5, 7], 1⟩ [1, 2, 3] ∧
      (decryptImpl ⟨[5, 7], 1⟩ [1, 2, 3] = none ↔
        ∀ k ∈ (Keyring.mk [5, 7] 1).keys,
          aeadDecrypt k ([1, 2, 3].take 12) ([1, 2, 3].drop 12) = none) ∧
      ([1, 2, 3].length < 12 → decryptImpl ⟨[5, 7], 1⟩ [1, 2, 3] = none)) :=
  c4_decrypt_structure ⟨[5, 7], 1⟩ [1, 2, 3]

/-! ## The v2 engine: `src/livedict/modules/livedict.py` with `MemoryBackend`

Stored values are modelled by `PyVal` (with Python `None` as a distinguished
constructor); `time.time()` is an explicit integer tick parameter; the
`ExpiryScheduler`'s heap is modelled by its observable pop-least behaviour
over `(when, key)` nodes with Python's lexicographic tuple order. -/

/-- A Python value as stored in the cache (`None`, numbers, strings). -/
inductive PyVal where
  | none
  | nat (n : Nat)
  | str (s : String)
deriving DecidableEq, Repr

/-- Python truthiness of a `PyVal` (`None`, `0` and `""` are falsy). -/
def pyTruthy : PyVal → Bool
  | PyVal.none => false
  | PyVal.nat n => n != 0
  | PyVal.str s => s != ""

/-- `MemoryBackend` state (`storage_backend.py` lines 105-182): the `_store`
dict and the `_ttls` dict of absolute expiry times. -/
structure MemBackend where
  store : List (String × PyVal)
  ttls : List (String × ℤ)
deriving DecidableEq, Repr

/-- `MemoryBackend._set_value`: store the value; record `now + ttl` if a ttl
is given, else drop any ttl marker. -/
def memSetValue (b : MemBackend) (key : String) (v : PyVal) (ttl : Option ℤ)
    (now : ℤ) : MemBackend :=
  { store := aset b.store key v,
    ttls := match ttl with
      | some s => aset b.ttls key (now + s)
      | Option.none => aerase b.ttls key }

/-- `MemoryBackend._get_value`: if the key carries an elapsed ttl marker, pop
the entry and the marker and return the default; otherwise return the stored
value (or the default when absent). -/
def memGetValue (b : MemBackend) (key : String) (dflt : PyVal) (now : ℤ) :
    PyVal × MemBackend :=
  match alookup b.ttls key with
  | some exp =>
    if exp ≤ now then
      (dflt, { store := aerase b.store key, ttls := aerase b.ttls key })
    else ((alookup b.store key).getD dflt, b)
  | Option.none => ((alookup b.store key).getD dflt, b)

/-- `MemoryBackend._delete_value`: pop the entry and its ttl marker. -/
def memDeleteValue (b : MemBackend) (key : String) : MemBackend :=
  { store := aerase b.store key, ttls := aerase b.ttls key }

/-- One registered hook (`livedict.py` `CallbackEntry`); the Python callable
`fn` is modelled by an opaque handle. -/
structure CallbackEntry where
  id : String
  fn : String
  timeout : Option ℤ
  enabled : Bool
  isAsync : Bool
deriving DecidableEq, Repr

/-- State of a `LiveDictImpl` over a `MemoryBackend`, together with the
`ExpiryScheduler` it owns (`_heap`, `_cancelled`), the callback registry, the
per-key lock table (`_key_locks`, recursion count of each re-entrant lock in
the single-caller model), and two observation logs: `events` records every
`_trigger_event` invocation and `dispatched` records every callback entry
handed to the executor. -/
structure ImplState where
  backend : MemBackend
  heap : List (ℤ × String)
  cancelled : List String
  callbacks : List (String × List (String × List CallbackEntry))
  keyLocks : List (String × Nat)
  events : List (String × String × PyVal)
  dispatched : List (String × String × String)
deriving DecidableEq, Repr

/-- `LiveDictImpl._gather_callbacks`: entries scoped to the key plus global
entries for the event, keeping only the enabled ones. -/
def gatherCallbacks (cbs : List (String × List (String × List CallbackEntry)))
    (event key : String) : List CallbackEntry :=
  let m := (alookup cbs event).getD []
  (((alookup m key).getD []) ++ ((alookup m "__global__").getD [])).filter
    (fun e => e.enabled)

/-- `LiveDictImpl._trigger_event`: gather the enabled entries and submit each
one to the worker pool (logged in `dispatched`); the invocation itself is
logged in `events`. -/
def triggerEvent (st : ImplState) (event key : String) (value : PyVal) : ImplState :=
  let entries := gatherCallbacks st.callbacks event key
  { st with
    events := st.events ++ [(event, key, value)],
    dispatched := st.dispatched ++ entries.map (fun e => (event, key, e.id)) }

/-- `LiveDictImpl.set` (`livedict.py` lines 168-190): write to the backend;
if a ttl is given push a `(now+ttl, key)` scheduler node, else call
`Scheduler.cancel(key)`; raise the `set` event. -/
def setImpl (st : ImplState) (key : String) (value : PyVal) (ttl : Option ℤ)
    (now : ℤ) : ImplState :=
  let st1 := { st with backend := memSetValue st.backend key value ttl now }
  let st2 := match ttl with
    | some t => { st1 with heap := st1.heap ++ [(now + t, key)] }
    | Option.none => { st1 with cancelled := sinsert st1.cancelled key }
  triggerEvent st2 "set" key value

/-- `LiveDictImpl.get` (`livedict.py` lines 192-208): read from the backend;
raise the `get` event when the result is neither the default nor `None`. -/
def getImpl (st : ImplState) (key : String) (dflt : PyVal) (now : ℤ) :
    PyVal × ImplState :=
  let p := memGetValue st.backend key dflt now
  let st1 := { st with backend := p.2 }
  if p.1 ≠ dflt ∧ p.1 ≠ PyVal.none then (p.1, triggerEvent st1 "get" key p.1)
  else (p.1, st1)

/-- `LiveDictImpl.delete` (`livedict.py` lines 210-226): read the value for
the event payload, delete from the backend, cancel the scheduler node, raise
the `delete` event.  The Python method body ends without a `return`, so the
call returns `None`. -/
def deleteImpl (st : ImplState) (key : String) (now : ℤ) : PyVal × ImplState :=
  let p := memGetValue st.backend key PyVal.none now
  let b2 := memDeleteValue p.2 key
  let st1 := { st with backend := b2, cancelled := sinsert st.cancelled key }
  (PyVal.none, triggerEvent st1 "delete" key p.1)

/-- `LiveDictImpl._handle_expiry` (`livedict.py` lines 252-260): read the
value, delete the entry, raise the `expire` event. -/
def handleExpiry (st : ImplState) (key : String) (now : ℤ) : ImplState :=
  let p := memGetValue st.backend key PyVal.none now
  let b2 := memDeleteValue p.2 key
  triggerEvent { st with backend := b2 } "expire" key p.1

/-- Python tuple comparison on `(when, key)` heap nodes (the `heapq` order). -/
def nodeMin (a b : ℤ × String) : ℤ × String :=
  if a.1 < b.1 then a else if b.1 < a.1 then b else if a.2 ≤ b.2 then a else b

/-- The least heap node in `heapq` order, if any. -/
def heapMin : List (ℤ × String) → Option (ℤ × String)
  | [] => Option.none
  | x :: xs => some (xs.foldl nodeMin x)

/-- Remove the first occurrence of a node (the effect of `heapq.heappop` on
the node multiset). -/
def removeFirst : List (ℤ × String) → (ℤ × String) → List (ℤ × String)
  | [], _ => []
  | x :: xs, n => if x = n then xs else x :: removeFirst xs n

/-- One firing iteration of `ExpiryScheduler.run` (`livedict.py` lines
59-84) at time `now`: if the least node is due, pop it; discard it (removing
the key from the cancellation set) when the key is cancelled, otherwise call
the expiry handler. -/
def schedStep (st : ImplState) (now : ℤ) : ImplState :=
  match heapMin st.heap with
  | Option.none => st
  | some n =>
    if n.1 ≤ now then
      let st1 := { st with heap := removeFirst st.heap n }
      if n.2 ∈ st1.cancelled then
        { st1 with cancelled := sdiscard st1.cancelled n.2 }
      else handleExpiry st1 n.2 now
    else st

/-- Run the scheduler loop at each of the given wake-up times in order. -/
def runSched (st : ImplState) (times : List ℤ) : ImplState :=
  times.foldl schedStep st

/-- `LiveDictImpl.register_callback` (`livedict.py` lines 262-280): reject an
unknown event, otherwise append a fresh enabled entry under the key scope (or
`"__global__"` when the key is `None` or empty, per `key or '__global__'`).
The fresh `uuid4` id is an explicit parameter. -/
def registerCallback (st : ImplState) (event fnId : String) (key : Option String)
    (timeout : Option ℤ) (isAsync : Bool) (cbid : String) :
    Except Unit (String × ImplState) :=
  match alookup st.callbacks event with
  | Option.none => Except.error ()
  | some m =>
    let target := match key with
      | Option.none => "__global__"
      | some k => if k = "" then "__global__" else k
    let entry : CallbackEntry := ⟨cbid, fnId, timeout, true, isAsync⟩
    let m2 := match alookup m target with
      | some lst => aset m target (lst ++ [entry])
      | Option.none => m ++ [(target, [entry])]
    Except.ok (cbid, { st with callbacks := aset st.callbacks event m2 })

/-- The callback registry as `LiveDictImpl.__init__` builds it. -/
def initCallbacks : List (String × List (String × List CallbackEntry)) :=
  [("set", []), ("get", []), ("delete", []), ("expire", [])]

/-- A fresh `LiveDictImpl` over a fresh `MemoryBackend`. -/
def initState : ImplState :=
  { backend := ⟨[], []⟩, heap := [], cancelled := [], callbacks := initCallbacks,
    keyLocks := [], events := [], dispatched := [] }

/-- Convenience for building traces: register a callback, keeping the state
unchanged if registration is rejected. -/
def regOrSelf (st : ImplState) (event fnId : String) (key : Option String)
    (cbid : String) : ImplState :=
  match registerCallback st event fnId key (some 2) false cbid with
  | Except.ok pr => pr.2
  | Except.error _ => st

/-! ## Claim C1: superseded scheduler nodes -/

/-- Trace for C1: an `expire` hook is registered, then `set("k", 1, ttl=1)`
and `set("k", 2, ttl=10)` are issued at time 0. -/
def c1AfterSecondSet : ImplState :=
  setImpl (setImpl (regOrSelf initState "expire" "hook" Option.none "cb1")
    "k" (PyVal.nat 1) (some 1) 0) "k" (PyVal.nat 2) (some 10) 0

/-- The scheduler wakes at time 1 and fires the superseded `(1, "k")` node. -/
def c1SupersededFired : ImplState := schedStep c1AfterSecondSet 1

/-- C1 — Evaluation at the failing input: after `set("k",1,ttl=1)` then
`set("k",2,ttl=10)` (both at time 0), the first node is still pending and not
cancelled; when the scheduler wakes at time 1 it fires that stale node, which
deletes the live entry stored with ttl 10 and raises (and dispatches) an
`expire` event — contradicting the claim that the first expiry is cancelled
or discarded without side effects. -/
theorem c1_stale_node_fires_with_side_effects :
    alookup c1AfterSecondSet.backend.store "k" = some (PyVal.nat 2) ∧
    c1AfterSecondSet.heap = [(1, "k"), (10, "k")] ∧
    c1AfterSecondSet.cancelled = [] ∧
    alookup c1SupersededFired.backend.store "k" = Option.none ∧
    c1SupersededFired.events =
      [("set", "k", PyVal.nat 1), ("set", "k", PyVal.nat 2),
        ("expire", "k", PyVal.nat 2)] ∧
    c1SupersededFired.dispatched = [("expire", "k", "cb1")] := by decide

/-! ## Claim C6: TTL semantics of `set` then `get` -/

/-- C6 — After `set(key, value, ttl)` at time `now` (with no intervening
operation on the key), `get(key, dflt)` returns `value` at every time
strictly before `now + ttl` and returns the supplied default at every time
from `now + ttl` on. -/
theorem c6_set_get_ttl_semantics (st : ImplState) (key : String) (value : PyVal)
    (ttl now t : ℤ) (dflt : PyVal) :
    (t < now + ttl →
      (getImpl (setImpl st key value (some ttl) now) key dflt t).1 = value) ∧
    (now + ttl ≤ t →
      (getImpl (setImpl st key value (some ttl) now) key dflt t).1 = dflt) := by
  have hb : (setImpl st key value (some ttl) now).backend =
      { store := aset st.backend.store key value,
        ttls := aset st.backend.ttls key (now + ttl) } := rfl
  have httl : alookup (aset st.backend.ttls key (now + ttl)) key = some (now + ttl) :=
    alookup_aset_self _ _ _
  have hstore : alookup (aset st.backend.store key value) key = some value :=
    alookup_aset_self _ _ _
  constructor
  · intro hlt
    have hnot : ¬ (now + ttl ≤ t) := by omega
    simp only [getImpl, hb, memGetValue, httl, if_neg hnot, hstore, Option.getD_some]
    split <;> rfl
  · intro hle
    simp only [getImpl, hb, memGetValue, httl, if_pos hle]
    split <;> rfl

/-- Closed witness for C6 at a concrete store, value and times. -/
theorem c6_set_get_ttl_semantics_witness :
    ((3 : ℤ) < 0 + 5 →
      (getImpl (setImpl initState "k" (PyVal.nat 7) (some 5) 0) "k" PyVal.none 3).1 =
        PyVal.nat 7) ∧
    ((0 : ℤ) + 5 ≤ 6 →
      (getImpl (setImpl initState "k" (PyVal.nat 7) (some 5) 0) "k" PyVal.none 6).1 =
        PyVal.none) :=
  c6_set_get_ttl_semantics initState "k" (PyVal.nat 7) 5 0 3 PyVal.none |>.imp
    id (fun _ _ => (c6_set_get_ttl_semantics initState "k" (PyVal.nat 7) 5 0 6
      PyVal.none).2 (by decide))

/-! ## Claim C9: `delete` on a nonexistent key -/

theorem aerase_eq_of_alookup_none {κ α : Type} [DecidableEq κ]
    (l : List (κ × α)) (k : κ) (h : alookup l k = Option.none) : aerase l k = l := by
  induction l with
  | nil => rfl
  | cons hd tl ih =>
    obtain ⟨k0, v0⟩ := hd
    by_cases h0 : k0 = k
    · simp [alookup, h0] at h
    · simp only [alookup, if_neg h0] at h
      simp [aerase, h0, ih h]

/-- C9 — `delete(key)` on a key that is not in the store returns Python
`None` (a falsy, not-found result rather than a success result), raises
nothing (the embedded operation is total), and leaves the stored entries
exactly as they were. -/
theorem c9_delete_nonexistent_noop (st : ImplState) (key : String) (now : ℤ)
    (habs : alookup st.backend.store key = Option.none) :
    (deleteImpl st key now).1 = PyVal.none ∧
    pyTruthy (deleteImpl st key now).1 = false ∧
    (deleteImpl st key now).2.backend.store = st.backend.store := by
  have hstore : (memGetValue st.backend key PyVal.none now).2.store = st.backend.store := by
    unfold memGetValue
    cases h : alookup st.backend.ttls key with
    | none => rfl
    | some exp =>
      by_cases hle : exp ≤ now
      · simp only [if_pos hle]
        exact aerase_eq_of_alookup_none _ _ habs
      · simp [hle]
  refine ⟨rfl, rfl, ?_⟩
  show (memDeleteValue (memGetValue st.backend key PyVal.none now).2 key).store =
    st.backend.store
  unfold memDeleteValue
  rw [hstore]
  exact aerase_eq_of_alookup_none _ _ habs

/-- Closed witness for C9: deleting from a fresh, empty store. -/
theorem c9_delete_nonexistent_noop_witness :
    (deleteImpl initState "k" 0).1 = PyVal.none ∧
    pyTruthy (deleteImpl initState "k" 0).1 = false ∧
    (deleteImpl initState "k" 0).2.backend.store = initState.backend.store :=
  c9_delete_nonexistent_noop initState "k" 0 (by decide)

/-! ## Claim C7: `set` without ttl -/

/-- Trace for C7: `set("k",1,ttl=1)`, `set("k",2,ttl=2)`, then
`set("k",3)` with no ttl, all at time 0. -/
def c7AfterSets : ImplState :=
  setImpl (setImpl (setImpl initState "k" (PyVal.nat 1) (some 1) 0)
    "k" (PyVal.nat 2) (some 2) 0) "k" (PyVal.nat 3) Option.none 0

/-- The scheduler then wakes at times 1 and 2. -/
def c7AfterFiring : ImplState := runSched c7AfterSets [1, 2]

/-- C7 counterexample — the no-ttl `set` does call `Scheduler.cancel` (the
key enters the cancellation set and no node is pushed), but with two nodes
still pending the cancellation mark is consumed by the first fired node, and
the second stale node then expires the key: an `expire` event fires and the
entry is deleted without any explicit `delete`, refuting "afterwards the key
never expires". -/
theorem c7_counterexample :
    ("k" ∈ c7AfterSets.cancelled ∧ c7AfterSets.heap = [(1, "k"), (2, "k")] ∧
      alookup c7AfterSets.backend.ttls "k" = Option.none) ∧
    ("expire", "k", PyVal.nat 3) ∈ c7AfterFiring.events ∧
    alookup c7AfterFiring.backend.store "k" = Option.none := by decide

/-! ### Scheduler invariant for the amended C7 -/

/-- The scheduler nodes carrying a given key. -/
def keyNodes : List (ℤ × String) → String → List (ℤ × String)
  | [], _ => []
  | n :: rest, key => if n.2 = key then n :: keyNodes rest key else keyNodes rest key

theorem mem_sinsert_self {α : Type} [DecidableEq α] (s : List α) (a : α) :
    a ∈ sinsert s a := by
  unfold sinsert
  split_ifs with h
  · exact h
  · exact List.mem_append_right _ (List.mem_singleton.mpr rfl)

theorem mem_keyNodes (h : List (ℤ × String)) (key : String) (m : ℤ × String)
    (hm : m ∈ h) (hk : m.2 = key) : m ∈ keyNodes h key := by
  induction h with
  | nil => cases hm
  | cons x xs ih =>
    rcases List.mem_cons.mp hm with h1 | h1
    · subst h1
      simp only [keyNodes, if_pos hk]
      exact List.mem_cons_self _ _
    · by_cases hx : x.2 = key
      · simp only [keyNodes, if_pos hx]
        exact List.mem_cons_of_mem _ (ih h1)
      · simp only [keyNodes, if_neg hx]
        exact ih h1

theorem mem_of_mem_keyNodes (h : List (ℤ × String)) (key : String) (m : ℤ × String)
    (hm : m ∈ keyNodes h key) : m ∈ h ∧ m.2 = key := by
  induction h with
  | nil => cases hm
  | cons x xs ih =>
    by_cases hx : x.2 = key
    · simp only [keyNodes, if_pos hx] at hm
      rcases List.mem_cons.mp hm with h1 | h1
      · subst h1
        exact ⟨List.mem_cons_self _ _, hx⟩
      · obtain ⟨a, b⟩ := ih h1
        exact ⟨List.mem_cons_of_mem _ a, b⟩
    · simp only [keyNodes, if_neg hx] at hm
      obtain ⟨a, b⟩ := ih hm
      exact ⟨List.mem_cons_of_mem _ a, b⟩

theorem keyNodes_removeFirst_of_ne (h : List (ℤ × String)) (key : String)
    (n : ℤ × String) (hne : ¬ n.2 = key) :
    keyNodes (removeFirst h n) key = keyNodes h key := by
  induction h with
  | nil => rfl
  | cons x xs ih =>
    by_cases hx : x = n
    · subst hx
      have hr : removeFirst (x :: xs) x = xs := by
        simp [removeFirst]
      rw [hr]
      simp only [keyNodes, if_neg hne]
    · simp only [removeFirst, if_neg hx, keyNodes]
      by_cases hxk : x.2 = key
      · simp only [if_pos hxk, ih]
      · simp only [if_neg hxk, ih]

theorem keyNodes_removeFirst_singleton (h : List (ℤ × String)) (key : String)
    (n : ℤ × String) (hs : keyNodes h key = [n]) :
    keyNodes (removeFirst h n) key = [] := by
  induction h with
  | nil => cases hs
  | cons x xs ih =>
    by_cases hx : x = n
    · subst hx
      simp only [removeFirst, if_pos rfl]
      by_cases hxk : x.2 = key
      · simp only [keyNodes, if_pos hxk, List.cons.injEq] at hs
        exact hs.2
      · simp only [keyNodes, if_neg hxk] at hs
        have hmem : x ∈ keyNodes xs key := by
          rw [hs]
          exact List.mem_cons_self _ _
        exact absurd (mem_of_mem_keyNodes xs key x hmem).2 hxk
    · simp only [removeFirst, if_neg hx]
      by_cases hxk : x.2 = key
      · simp only [keyNodes, if_pos hxk, List.cons.injEq] at hs
        exact absurd hs.1 hx
      · simp only [keyNodes, if_neg hxk] at hs
        simp only [keyNodes, if_neg hxk]
        exact ih hs

theorem mem_of_mem_removeFirst (h : List (ℤ × String)) (n m : ℤ × String)
    (hm : m ∈ removeFirst h n) : m ∈ h := by
  induction h with
  | nil => cases hm
  | cons x xs ih =>
    by_cases hx : x = n
    · simp only [removeFirst, if_pos hx] at hm
      exact List.mem_cons_of_mem _ hm
    · simp only [removeFirst, if_neg hx] at hm
      rcases List.mem_cons.mp hm with h1 | h1
      · rw [h1]
        exact List.mem_cons_self _ _
      · exact List.mem_cons_of_mem _ (ih h1)

theorem singleton_of_length_le_one {α : Type} (l : List α) (a : α)
    (hm : a ∈ l) (hl : l.length ≤ 1) : l = [a] := by
  cases l with
  | nil => cases hm
  | cons x xs =>
    cases xs with
    | nil =>
      rcases List.mem_cons.mp hm with h | h
      · rw [h]
      · cases h
    | cons y ys =>
      exfalso
      simp only [List.length_cons] at hl
      omega

theorem foldl_nodeMin_mem (xs : List (ℤ × String)) (x : ℤ × String) :
    xs.foldl nodeMin x ∈ x :: xs := by
  induction xs generalizing x with
  | nil => exact List.mem_cons_self _ _
  | cons y ys ih =>
    simp only [List.foldl_cons]
    have h := ih (nodeMin x y)
    have hxy : nodeMin x y = x ∨ nodeMin x y = y := by
      unfold nodeMin
      split_ifs <;> simp
    rcases List.mem_cons.mp h with h1 | h1
    · rcases hxy with h2 | h2
      · rw [h1, h2]
        exact List.mem_cons_self _ _
      · rw [h1, h2]
        exact List.mem_cons_of_mem _ (List.mem_cons_self _ _)
    · exact List.mem_cons_of_mem _ (List.mem_cons_of_mem _ h1)

theorem heapMin_mem (h : List (ℤ × String)) (n : ℤ × String)
    (hm : heapMin h = some n) : n ∈ h := by
  cases h with
  | nil => cases hm
  | cons x xs =>
    simp only [heapMin, Option.some.injEq] at hm
    rw [← hm]
    exact foldl_nodeMin_mem xs x

theorem schedStep_eq_idle (s : ImplState) (t : ℤ)
    (hm : heapMin s.heap = Option.none) : schedStep s t = s := by
  unfold schedStep
  rw [hm]

theorem schedStep_eq_not_due (s : ImplState) (t : ℤ) (n : ℤ × String)
    (hm : heapMin s.heap = some n) (hdue : ¬ n.1 ≤ t) : schedStep s t = s := by
  unfold schedStep
  rw [hm]
  simp [hdue]

theorem schedStep_eq_discard (s : ImplState) (t : ℤ) (n : ℤ × String)
    (hm : heapMin s.heap = some n) (hdue : n.1 ≤ t) (hc : n.2 ∈ s.cancelled) :
    schedStep s t =
      { s with heap := removeFirst s.heap n, cancelled := sdiscard s.cancelled n.2 } := by
  unfold schedStep
  rw [hm]
  simp [hdue, hc]

theorem schedStep_eq_fire (s : ImplState) (t : ℤ) (n : ℤ × String)
    (hm : heapMin s.heap = some n) (hdue : n.1 ≤ t) (hc : n.2 ∉ s.cancelled) :
    schedStep s t = handleExpiry { s with heap := removeFirst s.heap n } n.2 t := by
  unfold schedStep
  rw [hm]
  simp [hdue, hc]

theorem memGetValue_snd_lookup_ne (b : MemBackend) (k' key : String) (d : PyVal)
    (t : ℤ) (hne : k' ≠ key) :
    alookup (memGetValue b k' d t).2.store key = alookup b.store key ∧
    alookup (memGetValue b k' d t).2.ttls key = alookup b.ttls key := by
  unfold memGetValue
  cases alookup b.ttls k' with
  | none => exact ⟨rfl, rfl⟩
  | some exp =>
    by_cases hle : exp ≤ t
    · simp only [if_pos hle]
      exact ⟨alookup_aerase_ne _ _ _ hne, alookup_aerase_ne _ _ _ hne⟩
    · simp [if_neg hle]

theorem handleExpiry_fields (s : ImplState) (k' : String) (t : ℤ) :
    (handleExpiry s k' t).heap = s.heap ∧
    (handleExpiry s k' t).cancelled = s.cancelled ∧
    (handleExpiry s k' t).events =
      s.events ++ [("expire", k', (memGetValue s.backend k' PyVal.none t).1)] ∧
    (handleExpiry s k' t).backend =
      memDeleteValue (memGetValue s.backend k' PyVal.none t).2 k' :=
  ⟨rfl, rfl, rfl, rfl⟩

theorem handleExpiry_lookup_ne (s : ImplState) (k' key : String) (t : ℤ)
    (hne : k' ≠ key) :
    alookup (handleExpiry s k' t).backend.store key = alookup s.backend.store key ∧
    alookup (handleExpiry s k' t).backend.ttls key = alookup s.backend.ttls key := by
  rw [(handleExpiry_fields s k' t).2.2.2]
  have h1 := memGetValue_snd_lookup_ne s.backend k' key PyVal.none t hne
  unfold memDeleteValue
  constructor
  · rw [alookup_aerase_ne _ _ _ hne]
    exact h1.1
  · rw [alookup_aerase_ne _ _ _ hne]
    exact h1.2

/-- Invariant: the key is stored with value `v` and no ttl marker, at most one
scheduler node carries it and any such node is covered by the cancellation
set, and every event beyond the baseline `ev0` is not an expire event for the
key. -/
def NoTtlInv (key : String) (v : PyVal) (ev0 : List (String × String × PyVal))
    (s : ImplState) : Prop :=
  alookup s.backend.store key = some v ∧
  alookup s.backend.ttls key = Option.none ∧
  (keyNodes s.heap key).length ≤ 1 ∧
  (∀ n ∈ s.heap, n.2 = key → key ∈ s.cancelled) ∧
  (∀ e ∈ s.events, e ∈ ev0 ∨ ¬(e.1 = "expire" ∧ e.2.1 = key))

theorem noTtlInv_schedStep (key : String) (v : PyVal)
    (ev0 : List (String × String × PyVal)) (s : ImplState) (t : ℤ)
    (h : NoTtlInv key v ev0 s) : NoTtlInv key v ev0 (schedStep s t) := by
  obtain ⟨hstore, httl, hcnt, hcanc, hev⟩ := h
  cases hm : heapMin s.heap with
  | none =>
    rw [schedStep_eq_idle s t hm]
    exact ⟨hstore, httl, hcnt, hcanc, hev⟩
  | some n =>
    by_cases hdue : n.1 ≤ t
    · have hnmem : n ∈ s.heap := heapMin_mem _ _ hm
      by_cases hkey : n.2 = key
      · have hkc : key ∈ s.cancelled := hcanc n hnmem hkey
        have hmemc : n.2 ∈ s.cancelled := by
          rw [hkey]
          exact hkc
        rw [schedStep_eq_discard s t n hm hdue hmemc]
        have hsing : keyNodes s.heap key = [n] :=
          singleton_of_length_le_one _ n (mem_keyNodes _ _ _ hnmem hkey) hcnt
        have hempty : keyNodes (removeFirst s.heap n) key = [] :=
          keyNodes_removeFirst_singleton _ _ _ hsing
        refine ⟨hstore, httl, ?_, ?_, hev⟩
        · rw [hempty]
          simp
        · intro m hmm hmk
          exfalso
          have hmem2 := mem_keyNodes _ _ _ hmm hmk
          rw [hempty] at hmem2
          cases hmem2
      · by_cases hc : n.2 ∈ s.cancelled
        · rw [schedStep_eq_discard s t n hm hdue hc]
          refine ⟨hstore, httl, ?_, ?_, hev⟩
          · rw [keyNodes_removeFirst_of_ne _ _ _ hkey]
            exact hcnt
          · intro m hmm hmk
            have hkm : key ∈ s.cancelled :=
              hcanc m (mem_of_mem_removeFirst _ _ _ hmm) hmk
            exact mem_sdiscard_of_ne _ _ _ (fun he => hkey he.symm) hkm
        · rw [schedStep_eq_fire s t n hm hdue hc]
          have hne : n.2 ≠ key := hkey
          have hpres := handleExpiry_lookup_ne
            { s with heap := removeFirst s.heap n } n.2 key t hne
          have hf := handleExpiry_fields
            { s with heap := removeFirst s.heap n } n.2 t
          refine ⟨?_, ?_, ?_, ?_, ?_⟩
          · rw [hpres.1]
            exact hstore
          · rw [hpres.2]
            exact httl
          · rw [hf.1]
            show (keyNodes (removeFirst s.heap n) key).length ≤ 1
            rw [keyNodes_removeFirst_of_ne _ _ _ hkey]
            exact hcnt
          · intro m hmm hmk
            rw [hf.1] at hmm
            rw [hf.2.1]
            exact hcanc m (mem_of_mem_removeFirst _ _ _ hmm) hmk
          · intro e he
            rw [hf.2.2.1] at he
            rcases List.mem_append.mp he with h1 | h1
            · exact hev e h1
            · right
              intro hcon
              rw [List.mem_singleton.mp h1] at hcon
              exact hne hcon.2
    · rw [schedStep_eq_not_due s t n hm hdue]
      exact ⟨hstore, httl, hcnt, hcanc, hev⟩

theorem noTtlInv_runSched (key : String) (v : PyVal)
    (ev0 : List (String × String × PyVal)) (s : ImplState) (times : List ℤ)
    (h : NoTtlInv key v ev0 s) : NoTtlInv key v ev0 (runSched s times) := by
  induction times generalizing s with
  | nil => exact h
  | cons t rest ih => exact ih _ (noTtlInv_schedStep key v ev0 s t h)

/-- C7 amended — A `set(key, value)` without a ttl calls `Scheduler.cancel`
rather than `Scheduler.schedule` (the heap is unchanged, the key enters the
cancellation set, the backend ttl marker is cleared); and provided at most
one scheduler node for the key was pending, the key never expires afterwards:
for every subsequent sequence of scheduler wake-ups the entry is still stored
with the written value and no `expire` event for the key is ever raised. -/
theorem c7_amended_cancel_single_node (st : ImplState) (key : String) (v : PyVal)
    (now : ℤ) (times : List ℤ)
    (hnd : (st.backend.ttls.map Prod.fst).Nodup)
    (hcnt : (keyNodes st.heap key).length ≤ 1) :
    (setImpl st key v Option.none now).heap = st.heap ∧
    key ∈ (setImpl st key v Option.none now).cancelled ∧
    alookup (setImpl st key v Option.none now).backend.ttls key = Option.none ∧
    alookup (runSched (setImpl st key v Option.none now) times).backend.store key
      = some v ∧
    (∀ e ∈ (runSched (setImpl st key v Option.none now) times).events,
      e ∈ (setImpl st key v Option.none now).events ∨
        ¬(e.1 = "expire" ∧ e.2.1 = key)) := by
  have httl0 : alookup (setImpl st key v Option.none now).backend.ttls key
      = Option.none := by
    show alookup (aerase st.backend.ttls key) key = Option.none
    exact alookup_aerase_self _ _ hnd
  have hinv0 : NoTtlInv key v (setImpl st key v Option.none now).events
      (setImpl st key v Option.none now) := by
    refine ⟨?_, httl0, hcnt, ?_, ?_⟩
    · show alookup (aset st.backend.store key v) key = some v
      exact alookup_aset_self _ _ _
    · intro n _ _
      show key ∈ sinsert st.cancelled key
      exact mem_sinsert_self _ _
    · intro e he
      exact Or.inl he
  have hinv := noTtlInv_runSched key v _ _ times hinv0
  exact ⟨rfl, mem_sinsert_self _ _, httl0, hinv.1, hinv.2.2.2.2⟩

/-- Closed witness for the amended C7: one pending node, then a no-ttl set,
then scheduler wake-ups at the old expiry time and after. -/
theorem c7_amended_cancel_single_node_witness :
    (setImpl (setImpl initState "k" (PyVal.nat 1) (some 5) 0) "k" (PyVal.nat 3)
        Option.none 1).heap = (setImpl initState "k" (PyVal.nat 1) (some 5) 0).heap ∧
    "k" ∈ (setImpl (setImpl initState "k" (PyVal.nat 1) (some 5) 0) "k" (PyVal.nat 3)
        Option.none 1).cancelled ∧
    alookup (setImpl (setImpl initState "k" (PyVal.nat 1) (some 5) 0) "k"
        (PyVal.nat 3) Option.none 1).backend.ttls "k" = Option.none ∧
    alookup (runSched (setImpl (setImpl initState "k" (PyVal.nat 1) (some 5) 0) "k"
        (PyVal.nat 3) Option.none 1) [5, 6]).backend.store "k" = some (PyVal.nat 3) ∧
    (∀ e ∈ (runSched (setImpl (setImpl initState "k" (PyVal.nat 1) (some 5) 0) "k"
        (PyVal.nat 3) Option.none 1) [5, 6]).events,
      e ∈ (setImpl (setImpl initState "k" (PyVal.nat 1) (some 5) 0) "k" (PyVal.nat 3)
        Option.none 1).events ∨ ¬(e.1 = "expire" ∧ e.2.1 = "k")) :=
  c7_amended_cancel_single_node (setImpl initState "k" (PyVal.nat 1) (some 5) 0)
    "k" (PyVal.nat 3) 1 [5, 6] (by decide) (by decide)

/-! ## Sandbox wrapper and dispatch tasks (`sandbox.py`, `_trigger_event`) -/

/-- Behaviour of one hook callable when invoked: completes, overruns its
deadline, or raises. -/
inductive HookOutcome where
  | ok
  | timeout
  | raised
deriving DecidableEq, Repr

/-- The two `SandboxError` shapes raised by `sandbox_wrap_sync`. -/
inductive SandboxErrKind where
  | timedOut
  | failed
deriving DecidableEq, Repr

/-- `sandbox_wrap_sync` (`sandbox.py` lines 9-38): the wrapped call raises
`SandboxError` when the hook is still alive after its timeout, re-wraps a
hook exception as `SandboxError`, and otherwise returns normally. -/
def sandboxWrapSync (outcome : HookOutcome) : Except SandboxErrKind Unit :=
  match outcome with
  | HookOutcome.ok => Except.ok ()
  | HookOutcome.timeout => Except.error SandboxErrKind.timedOut
  | HookOutcome.raised => Except.error SandboxErrKind.failed

/-- `_run_sync` inside `LiveDictImpl._trigger_event` (lines 370-386): run the
wrapped hook, swallowing `SandboxError` and any other exception — the
submitted task always completes normally. -/
def runSyncTask (outcome : HookOutcome) : Except Unit Unit :=
  match sandboxWrapSync outcome with
  | Except.error _ => Except.ok ()
  | Except.ok _ => Except.ok ()

/-- The worker pool running the `_run_sync` task of every submitted entry of
one trigger, in submission order; an error would propagate only if some task
escaped (none can). -/
def dispatchAll : List CallbackEntry → (String → HookOutcome) → Except Unit (List String)
  | [], _ => Except.ok []
  | e :: rest, outcomes =>
    match runSyncTask (outcomes e.id) with
    | Except.error u => Except.error u
    | Except.ok _ =>
      match dispatchAll rest outcomes with
      | Except.error u => Except.error u
      | Except.ok ids => Except.ok (e.id :: ids)

theorem runSyncTask_ok (o : HookOutcome) : runSyncTask o = Except.ok () := by
  cases o <;> rfl

/-! ## The legacy `core.py` `LiveDict.get` (per-entry hooks) -/

/-- Idealized model of the external JSON codec: `_serialize` of a numeric
value and its inverse (`json.dumps`/`json.loads` round-trip). -/
def serializeVal (v : Nat) : List Nat := [v]

/-- Inverse of `serializeVal`; any other byte string fails to parse. -/
def deserializeVal : List Nat → Option Nat
  | [v] => some v
  | _ => Option.none

/-- An `Entry` of `core.py` (lines 169-195): ciphertext, absolute expiry, and
whether the legacy per-entry hooks are attached (the callables themselves are
modelled by the `HookOutcome` supplied at call time). -/
structure CoreEntry where
  ciphertext : List Nat
  expireAt : ℤ
  hasOnAccess : Bool
  hasOnExpire : Bool
deriving DecidableEq, Repr

/-- State of a legacy `core.LiveDict` with redis disabled and no auth
function (the constructor defaults): the keyring and the `_store` map. -/
structure CoreState where
  ring : Keyring
  store : List (String × CoreEntry)
deriving DecidableEq, Repr

/-- Exceptions `core.LiveDict.get` can raise to its caller. -/
inductive CoreErr where
  | sandboxTimeout
  | deserializeErr
deriving DecidableEq, Repr

/-- `LiveDict.get` of `core.py` (lines 415-473), redis disabled, no auth:
absent or expired entries yield `None`; an empty blob yields `None`;
decryption failure yields `None` with the store untouched (no deletion);
otherwise deserialize and, when an `on_access` hook is attached, run it under
the sandbox runner — `SandboxTimeout` is re-raised to the caller
(`except SandboxTimeout: raise`) while any other hook error is logged and
swallowed; finally return the value. -/
def coreGet (st : CoreState) (key : String) (now : ℤ)
    (accessOutcome : HookOutcome) : Except CoreErr (Option Nat) × CoreState :=
  match alookup st.store key with
  | Option.none => (Except.ok Option.none, st)
  | some entry =>
    if now ≤ entry.expireAt then
      if entry.ciphertext = [] then (Except.ok Option.none, st)
      else
        match decryptImpl st.ring entry.ciphertext with
        | Option.none => (Except.ok Option.none, st)
        | some pt =>
          match deserializeVal pt with
          | Option.none => (Except.error CoreErr.deserializeErr, st)
          | some val =>
            if entry.hasOnAccess then
              match accessOutcome with
              | HookOutcome.timeout => (Except.error CoreErr.sandboxTimeout, st)
              | _ => (Except.ok (some val), st)
            else (Except.ok (some val), st)
    else (Except.ok Option.none, st)

/-! ## Claim C2: sandbox timeout containment -/

/-- A live `core.py` entry whose `on_access` hook is attached, holding a
validly encrypted serialized `7`. -/
def c2Entry : CoreEntry :=
  ⟨encryptImpl ⟨[5], 0⟩ (List.replicate 12 0) (serializeVal 7), 100, true, false⟩

/-- A legacy store containing `c2Entry` under key `"k"`. -/
def c2State : CoreState := ⟨⟨[5], 0⟩, [("k", c2Entry)]⟩

/-- C2 counterexample — in the legacy `core.py` path (cited by the claim), an
`on_access` hook that exceeds its timeout makes `get` raise `SandboxTimeout`
to its caller (`except SandboxTimeout: raise`; the repository's own tests
assert `pytest.raises(SandboxTimeout)` around `get`), refuting "never raised
to the caller of the triggering set/get/delete". -/
theorem c2_counterexample :
    (coreGet c2State "k" 0 HookOutcome.timeout).1 =
      Except.error CoreErr.sandboxTimeout := rfl

theorem deserialize_serialize (v : Nat) : deserializeVal (serializeVal v) = some v := rfl

theorem dispatchAll_ok (entries : List CallbackEntry) (outcomes : String → HookOutcome) :
    dispatchAll entries outcomes = Except.ok (entries.map (fun e => e.id)) := by
  induction entries with
  | nil => rfl
  | cons e rest ih =>
    simp only [dispatchAll, runSyncTask_ok, ih, List.map_cons]

/-- C2 amended — In the v2 registry dispatch (`_trigger_event`), a hook
exceeding its timeout is observed only by the dispatch layer: the sandbox
wrapper turns it into a `SandboxError`, the submitted task swallows it and
completes, every gathered entry is submitted regardless of the others'
outcomes, and the triggering call never sees it.  In the legacy `core.py`
per-entry hook path, however, `get` re-raises `SandboxTimeout` to its caller
whenever the entry's `on_access` hook overruns. -/
theorem c2_amended_timeout_containment (entries : List CallbackEntry)
    (outcomes : String → HookOutcome) (st : ImplState) (ev key : String) (v : PyVal)
    (cst : CoreState) (ckey : String) (now : ℤ) (entry : CoreEntry) (val : Nat)
    (hent : alookup cst.store ckey = some entry)
    (halive : now ≤ entry.expireAt)
    (hdec : decryptImpl cst.ring entry.ciphertext = some (serializeVal val))
    (hacc : entry.hasOnAccess = true) :
    dispatchAll entries outcomes = Except.ok (entries.map (fun e => e.id)) ∧
    runSyncTask HookOutcome.timeout = Except.ok () ∧
    sandboxWrapSync HookOutcome.timeout = Except.error SandboxErrKind.timedOut ∧
    (triggerEvent st ev key v).dispatched =
      st.dispatched ++ (gatherCallbacks st.callbacks ev key).map
        (fun e => (ev, key, e.id)) ∧
    (coreGet cst ckey now HookOutcome.timeout).1 =
      Except.error CoreErr.sandboxTimeout := by
  refine ⟨dispatchAll_ok entries outcomes, rfl, rfl, rfl, ?_⟩
  have hne : ¬ entry.ciphertext = [] := by
    intro h
    rw [h] at hdec
    simp [decryptImpl] at hdec
  simp only [coreGet, hent, if_pos halive, if_neg hne, hdec, deserialize_serialize,
    hacc, if_pos]

/-- A concrete callback entry for the C2 witness. -/
def c2CbEntry : CallbackEntry := ⟨"cb1", "f", some 1, true, false⟩

/-- Closed witness for the amended C2 at a concrete registry and store. -/
theorem c2_amended_timeout_containment_witness :
    dispatchAll [c2CbEntry] (fun _ => HookOutcome.timeout) =
      Except.ok (List.map (fun e => e.id) [c2CbEntry]) ∧
    runSyncTask HookOutcome.timeout = Except.ok () ∧
    sandboxWrapSync HookOutcome.timeout = Except.error SandboxErrKind.timedOut ∧
    (triggerEvent initState "get" "k" (PyVal.nat 7)).dispatched =
      initState.dispatched ++ (gatherCallbacks initState.callbacks "get" "k").map
        (fun e => ("get", "k", e.id)) ∧
    (coreGet c2State "k" 0 HookOutcome.timeout).1 =
      Except.error CoreErr.sandboxTimeout :=
  c2_amended_timeout_containment [c2CbEntry]
    (fun _ => HookOutcome.timeout) initState "get" "k" (PyVal.nat 7)
    c2State "k" 0 c2Entry 7 (by decide) (by decide) (by decide) (by decide)

/-! ## Claim C5: self-healing on authentication failure -/

/-- A stored blob (12-byte nonce plus a body committing to key 99) that fails
authentication under the keyring `[5]`. -/
def c5Entry : CoreEntry := ⟨List.replicate 12 0 ++ [99, 0], 100, false, false⟩

/-- A legacy store holding the corrupted `c5Entry` under `"k"`. -/
def c5State : CoreState := ⟨⟨[5], 0⟩, [("k", c5Entry)]⟩

/-- C5 counterexample — the blob fails authentication under every keyring
key, and `get` returns `None`, but the state is returned unchanged: the entry
is NOT deleted and is still stored under `"k"` afterwards, refuting the
claimed self-healing deletion. -/
theorem c5_counterexample :
    decryptImpl c5State.ring c5Entry.ciphertext = Option.none ∧
    (coreGet c5State "k" 0 HookOutcome.ok).1 = Except.ok Option.none ∧
    (coreGet c5State "k" 0 HookOutcome.ok).2 = c5State ∧
    alookup (coreGet c5State "k" 0 HookOutcome.ok).2.store "k" = some c5Entry :=
  ⟨rfl, rfl, rfl, rfl⟩

/-- C5 amended — when the stored ciphertext fails authentication under every
keyring key, `get` returns `None` (treating the entry as absent) but performs
no deletion: the store is unchanged and the entry remains present. -/
theorem c5_amended_no_selfheal (st : CoreState) (key : String) (now : ℤ)
    (oc : HookOutcome) (entry : CoreEntry)
    (hent : alookup st.store key = some entry)
    (halive : now ≤ entry.expireAt)
    (hfail : decryptImpl st.ring entry.ciphertext = Option.none) :
    (coreGet st key now oc).1 = Except.ok Option.none ∧
    (coreGet st key now oc).2 = st ∧
    alookup (coreGet st key now oc).2.store key = some entry := by
  have hres : coreGet st key now oc = (Except.ok Option.none, st) := by
    by_cases hne : entry.ciphertext = []
    · simp only [coreGet, hent, if_pos halive, if_pos hne]
    · simp only [coreGet, hent, if_pos halive, if_neg hne, hfail]
  rw [hres]
  exact ⟨rfl, rfl, hent⟩

/-- Closed witness for the amended C5 at the concrete corrupted store. -/
theorem c5_amended_no_selfheal_witness :
    (coreGet c5State "k" 0 HookOutcome.ok).1 = Except.ok Option.none ∧
    (coreGet c5State "k" 0 HookOutcome.ok).2 = c5State ∧
    alookup (coreGet c5State "k" 0 HookOutcome.ok).2.store "k" = some c5Entry :=
  c5_amended_no_selfheal c5State "k" 0 HookOutcome.ok c5Entry
    (by decide) (by decide) (by decide)

/-! ## Claim C10: per-key locks -/

/-- `LiveDictImpl._get_lock_for_key` (lines 121-129): create the key's
re-entrant lock (recursion count 0) on first use. -/
def getLockForKey (st : ImplState) (key : String) : ImplState :=
  match alookup st.keyLocks key with
  | some _ => st
  | Option.none => { st with keyLocks := aset st.keyLocks key 0 }

/-- `LiveDictImpl.lock` (lines 131-147): acquire the key's re-entrant lock.
In the single-caller model the acquire succeeds and increments the recursion
count; the optional timeout only bounds waiting under contention. -/
def lockImpl (st : ImplState) (key : String) (_timeout : Option ℤ) :
    Bool × ImplState :=
  let st1 := getLockForKey st key
  (true, { st1 with
    keyLocks := aset st1.keyLocks key ((alookup st1.keyLocks key).getD 0 + 1) })

/-- `threading.RLock.release`: raises `RuntimeError` when the lock is not
held by the caller. -/
def rlockRelease (n : Nat) : Except Unit Nat :=
  if n = 0 then Except.error () else Except.ok (n - 1)

/-- The body of `LiveDictImpl.unlock` before its `try/except`: look up (or
create) the key's lock and attempt to release it. -/
def unlockAttempt (st : ImplState) (key : String) : Except Unit ImplState :=
  match rlockRelease ((alookup (getLockForKey st key).keyLocks key).getD 0) with
  | Except.error e => Except.error e
  | Except.ok n =>
    Except.ok { getLockForKey st key with
      keyLocks := aset (getLockForKey st key).keyLocks key n }

/-- `LiveDictImpl.unlock` (lines 149-166): the `RuntimeError` raised by
releasing an unheld lock is swallowed (`except RuntimeError: pass`), so the
call always returns normally. -/
def unlockImpl (st : ImplState) (key : String) : ImplState :=
  match unlockAttempt st key with
  | Except.ok st' => st'
  | Except.error _ => getLockForKey st key

theorem getLockForKey_backend (st : ImplState) (key : String) :
    (getLockForKey st key).backend = st.backend := by
  unfold getLockForKey
  cases alookup st.keyLocks key <;> rfl

theorem unlockAttempt_ok_backend (st : ImplState) (key : String) (st' : ImplState)
    (h : unlockAttempt st key = Except.ok st') : st'.backend = st.backend := by
  unfold unlockAttempt at h
  cases hr : rlockRelease ((alookup (getLockForKey st key).keyLocks key).getD 0) with
  | error e =>
    rw [hr] at h
    cases h
  | ok n =>
    rw [hr] at h
    simp only [Except.ok.injEq] at h
    rw [← h]
    exact getLockForKey_backend st key

/-- C10 — `unlock(key)` never raises: whenever the underlying release errors
(unheld lock, never-locked key) the error is swallowed and the call returns
normally; and neither `lock` nor `unlock` changes the backend (every stored
key/value entry and ttl marker is untouched). -/
theorem c10_lock_unlock_safe (st : ImplState) (key : String) (tmo : Option ℤ) :
    (unlockImpl st key).backend = st.backend ∧
    ((lockImpl st key tmo).2).backend = st.backend ∧
    (∀ r, unlockAttempt st key = Except.error r →
      unlockImpl st key = getLockForKey st key) := by
  refine ⟨?_, ?_, ?_⟩
  · unfold unlockImpl
    cases h : unlockAttempt st key with
    | ok st' => exact unlockAttempt_ok_backend st key st' h
    | error e => exact getLockForKey_backend st key
  · have hb : ((lockImpl st key tmo).2).backend = (getLockForKey st key).backend := rfl
    rw [hb]
    exact getLockForKey_backend st key
  · intro r hr
    unfold unlockImpl
    rw [hr]

/-- Closed witness for C10: unlocking a never-locked key on a fresh store
(the underlying release really errors there and is swallowed). -/
theorem c10_lock_unlock_safe_witness :
    (unlockImpl initState "k").backend = initState.backend ∧
    ((lockImpl initState "k" Option.none).2).backend = initState.backend ∧
    (∀ r, unlockAttempt initState "k" = Except.error r →
      unlockImpl initState "k" = getLockForKey initState "k") :=
  c10_lock_unlock_safe initState "k" Option.none

/-! ## Claim C8: callback enable/disable -/

/-- First-match flip of `CallbackEntry.enabled` in one entry list (`None`
when no entry has the id). -/
def setEnabledEntries (cbid : String) (en : Bool) :
    List CallbackEntry → Option (List CallbackEntry)
  | [] => Option.none
  | e :: rest =>
    if e.id = cbid then some ({ e with enabled := en } :: rest)
    else match setEnabledEntries cbid en rest with
      | some rest' => some (e :: rest')
      | Option.none => Option.none

/-- First-match flip across one event's target map, in insertion order. -/
def setEnabledTargets (cbid : String) (en : Bool) :
    List (String × List CallbackEntry) → Option (List (String × List CallbackEntry))
  | [] => Option.none
  | (tgt, lst) :: rest =>
    match setEnabledEntries cbid en lst with
    | some lst' => some ((tgt, lst') :: rest)
    | Option.none =>
      match setEnabledTargets cbid en rest with
      | some rest' => some ((tgt, lst) :: rest')
      | Option.none => Option.none

/-- First-match flip across the whole registry, events in insertion order. -/
def setEnabledEvents (cbid : String) (en : Bool) :
    List (String × List (String × List CallbackEntry)) →
      Option (List (String × List (String × List CallbackEntry)))
  | [] => Option.none
  | (ev, m) :: rest =>
    match setEnabledTargets cbid en m with
    | some m' => some ((ev, m') :: rest)
    | Option.none =>
      match setEnabledEvents cbid en rest with
      | some rest' => some ((ev, m) :: rest')
      | Option.none => Option.none

/-- `LiveDictImpl.set_callback_enabled` (`livedict.py` lines 302-311): walk
the registry in insertion order, set `enabled` on the first entry whose id
matches and return `True`; return `False` with the registry unchanged when no
entry matches. -/
def setCallbackEnabled (cbs : List (String × List (String × List CallbackEntry)))
    (cbid : String) (en : Bool) :
    Bool × List (String × List (String × List CallbackEntry)) :=
  match setEnabledEvents cbid en cbs with
  | some cbs' => (true, cbs')
  | Option.none => (false, cbs)

theorem mem_of_alookup {κ α : Type} [DecidableEq κ] (l : List (κ × α)) (k : κ)
    (v : α) (h : alookup l k = some v) : (k, v) ∈ l := by
  induction l with
  | nil => cases h
  | cons hd tl ih =>
    obtain ⟨k0, v0⟩ := hd
    by_cases h0 : k0 = k
    · subst h0
      have hl : alookup ((k0, v0) :: tl) k0 = some v0 := by
        simp [alookup]
      rw [hl, Option.some_inj] at h
      rw [← h]
      exact List.mem_cons_self _ _
    · simp only [alookup, if_neg h0] at h
      exact List.mem_cons_of_mem _ (ih h)

theorem setEnabledEntries_found (cbid : String) (en : Bool)
    (lst : List CallbackEntry) (e : CallbackEntry)
    (hmem : e ∈ lst) (hid : e.id = cbid)
    (huniq : ∀ x ∈ lst, x.id = cbid → x = e) :
    ∃ lst', setEnabledEntries cbid en lst = some lst' ∧
      { e with enabled := en } ∈ lst' := by
  induction lst with
  | nil => cases hmem
  | cons x rest ih =>
    by_cases hx : x.id = cbid
    · have hxe : x = e := huniq x (List.mem_cons_self _ _) hx
      subst hxe
      refine ⟨{ x with enabled := en } :: rest, ?_, List.mem_cons_self _ _⟩
      simp [setEnabledEntries, hx]
    · have hmem' : e ∈ rest := by
        rcases List.mem_cons.mp hmem with h1 | h1
        · exact absurd (h1 ▸ hid) hx
        · exact h1
      obtain ⟨rest', hr, hm⟩ :=
        ih hmem' (fun x' hx' => huniq x' (List.mem_cons_of_mem _ hx'))
      refine ⟨x :: rest', ?_, List.mem_cons_of_mem _ hm⟩
      simp [setEnabledEntries, hx, hr]

theorem setEnabledEntries_none (cbid : String) (en : Bool)
    (lst : List CallbackEntry) (h : ∀ x ∈ lst, ¬ x.id = cbid) :
    setEnabledEntries cbid en lst = Option.none := by
  induction lst with
  | nil => rfl
  | cons x rest ih =>
    simp only [setEnabledEntries, if_neg (h x (List.mem_cons_self _ _)),
      ih (fun x' hx' => h x' (List.mem_cons_of_mem _ hx'))]

theorem setEnabledTargets_found (cbid : String) (en : Bool)
    (m : List (String × List CallbackEntry)) (tgt : String)
    (lst lst' : List CallbackEntry)
    (hm : alookup m tgt = some lst)
    (hlst : setEnabledEntries cbid en lst = some lst')
    (hother : ∀ p ∈ m, ∀ x ∈ p.2, x.id = cbid → p.1 = tgt) :
    ∃ m', setEnabledTargets cbid en m = some m' ∧ alookup m' tgt = some lst' := by
  induction m with
  | nil => cases hm
  | cons p rest ih =>
    obtain ⟨t0, l0⟩ := p
    by_cases h0 : t0 = tgt
    · subst h0
      have hl : alookup ((t0, l0) :: rest) t0 = some l0 := by
        simp [alookup]
      rw [hl, Option.some_inj] at hm
      subst hm
      refine ⟨(t0, lst') :: rest, ?_, ?_⟩
      · simp [setEnabledTargets, hlst]
      · simp [alookup]
    · simp only [alookup, if_neg h0] at hm
      have hl0 : setEnabledEntries cbid en l0 = Option.none := by
        apply setEnabledEntries_none
        intro x hx hxid
        exact h0 (hother (t0, l0) (List.mem_cons_self _ _) x hx hxid)
      obtain ⟨rest', hr, ha⟩ :=
        ih hm (fun p' hp' => hother p' (List.mem_cons_of_mem _ hp'))
      refine ⟨(t0, l0) :: rest', ?_, ?_⟩
      · simp [setEnabledTargets, hl0, hr]
      · simp only [alookup, if_neg h0]
        exact ha

theorem setEnabledTargets_none (cbid : String) (en : Bool)
    (m : List (String × List CallbackEntry))
    (h : ∀ p ∈ m, ∀ x ∈ p.2, ¬ x.id = cbid) :
    setEnabledTargets cbid en m = Option.none := by
  induction m with
  | nil => rfl
  | cons p rest ih =>
    obtain ⟨t0, l0⟩ := p
    have h0 : setEnabledEntries cbid en l0 = Option.none :=
      setEnabledEntries_none _ _ _
        (fun x hx => h (t0, l0) (List.mem_cons_self _ _) x hx)
    simp only [setEnabledTargets, h0,
      ih (fun p' hp' => h p' (List.mem_cons_of_mem _ hp'))]

theorem setEnabledEvents_found (cbid : String) (en : Bool)
    (cbs : List (String × List (String × List CallbackEntry))) (ev : String)
    (m m' : List (String × List CallbackEntry))
    (hm : alookup cbs ev = some m)
    (htgt : setEnabledTargets cbid en m = some m')
    (hother : ∀ q ∈ cbs, ∀ p ∈ q.2, ∀ x ∈ p.2, x.id = cbid → q.1 = ev) :
    ∃ cbs', setEnabledEvents cbid en cbs = some cbs' ∧
      alookup cbs' ev = some m' := by
  induction cbs with
  | nil => cases hm
  | cons q rest ih =>
    obtain ⟨e0, m0⟩ := q
    by_cases h0 : e0 = ev
    · subst h0
      have hl : alookup ((e0, m0) :: rest) e0 = some m0 := by
        simp [alookup]
      rw [hl, Option.some_inj] at hm
      subst hm
      refine ⟨(e0, m') :: rest, ?_, ?_⟩
      · simp [setEnabledEvents, htgt]
      · simp [alookup]
    · simp only [alookup, if_neg h0] at hm
      have hm0 : setEnabledTargets cbid en m0 = Option.none := by
        apply setEnabledTargets_none
        intro p hp x hx hxid
        exact h0 (hother (e0, m0) (List.mem_cons_self _ _) p hp x hx hxid)
      obtain ⟨rest', hr, ha⟩ :=
        ih hm (fun q' hq' => hother q' (List.mem_cons_of_mem _ hq'))
      refine ⟨(e0, m0) :: rest', ?_, ?_⟩
      · simp [setEnabledEvents, hm0, hr]
      · simp only [alookup, if_neg h0]
        exact ha

/-- C8 — While a registered entry's `enabled` flag is false, no trigger of
any event ever gathers (hence dispatches) it; and when the entry with id
`cbid` (unique in the registry, located under event `ev` and scope `tgt`,
with `tgt` matching the key either directly or as the global scope) is
re-enabled via `set_callback_enabled(cbid, true)`, the call returns `True`
and every subsequent matching trigger gathers the re-enabled entry again. -/
theorem c8_enabled_flag_controls_dispatch
    (cbs : List (String × List (String × List CallbackEntry)))
    (ev tgt key cbid : String) (m : List (String × List CallbackEntry))
    (lst : List CallbackEntry) (e : CallbackEntry)
    (hev : alookup cbs ev = some m)
    (htgt : alookup m tgt = some lst)
    (hmem : e ∈ lst)
    (hid : e.id = cbid)
    (huniq : ∀ q ∈ cbs, ∀ p ∈ q.2, ∀ x ∈ p.2,
      x.id = cbid → q.1 = ev ∧ p.1 = tgt ∧ x = e)
    (hscope : tgt = key ∨ tgt = "__global__") :
    (e.enabled = false → ∀ ev' key', e ∉ gatherCallbacks cbs ev' key') ∧
    (∀ ev' key', ∀ x ∈ gatherCallbacks cbs ev' key', x.enabled = true) ∧
    (∃ cbs', setCallbackEnabled cbs cbid true = (true, cbs') ∧
      { e with enabled := true } ∈ gatherCallbacks cbs' ev key) := by
  have honly : ∀ ev' key', ∀ x ∈ gatherCallbacks cbs ev' key', x.enabled = true := by
    intro ev' key' x hx
    have := List.mem_filter.mp hx
    simpa using this.2
  refine ⟨?_, honly, ?_⟩
  · intro hdis ev' key' hmem'
    rw [honly ev' key' e hmem'] at hdis
    cases hdis
  · have hqmem : (ev, m) ∈ cbs := mem_of_alookup _ _ _ hev
    have hpmem : (tgt, lst) ∈ m := mem_of_alookup _ _ _ htgt
    obtain ⟨lst', h1, hmem1⟩ := setEnabledEntries_found cbid true lst e hmem hid
      (fun x hx hxid => (huniq (ev, m) hqmem (tgt, lst) hpmem x hx hxid).2.2)
    obtain ⟨m', h2, ha2⟩ := setEnabledTargets_found cbid true m tgt lst lst' htgt h1
      (fun p hp x hx hxid => (huniq (ev, m) hqmem p hp x hx hxid).2.1)
    obtain ⟨cbs', h3, ha3⟩ := setEnabledEvents_found cbid true cbs ev m m' hev h2
      (fun q hq p hp x hx hxid => (huniq q hq p hp x hx hxid).1)
    refine ⟨cbs', ?_, ?_⟩
    · simp [setCallbackEnabled, h3]
    · unfold gatherCallbacks
      rw [ha3]
      simp only [Option.getD_some]
      apply List.mem_filter.mpr
      refine ⟨?_, rfl⟩
      rcases hscope with hs | hs
      · subst hs
        rw [ha2]
        simp only [Option.getD_some]
        exact List.mem_append_left _ hmem1
      · subst hs
        rw [ha2]
        simp only [Option.getD_some]
        exact List.mem_append_right _ hmem1

/-- The (initially disabled) entry used in the C8 witness. -/
def c8Entry : CallbackEntry := ⟨"cb1", "f", some 2, false, false⟩

/-- The registry used in the C8 witness: `c8Entry` registered for `get`
scoped to key `"k"`. -/
def c8Registry : List (String × List (String × List CallbackEntry)) :=
  [("set", []), ("get", [("k", [c8Entry])]), ("delete", []), ("expire", [])]

/-- Closed witness for C8 at a concrete registry. -/
theorem c8_enabled_flag_controls_dispatch_witness :
    (c8Entry.enabled = false →
      ∀ ev' key', c8Entry ∉ gatherCallbacks c8Registry ev' key') ∧
    (∀ ev' key', ∀ x ∈ gatherCallbacks c8Registry ev' key', x.enabled = true) ∧
    (∃ cbs', setCallbackEnabled c8Registry "cb1" true = (true, cbs') ∧
      { c8Entry with enabled := true } ∈ gatherCallbacks cbs' "get" "k") :=
  c8_enabled_flag_controls_dispatch c8Registry "get" "k" "k" "cb1"
    [("k", [c8Entry])] [c8Entry] c8Entry (by decide) (by decide) (by decide)
    (by decide) (by decide) (Or.inl rfl)
